import Mathlib

/-!
Shallow embedding of the `tag_editor` repository (Rust sources under `src/`):
`tag_manager.rs`, `slideshow.rs`, `image_viewer.rs` and the tag-session part of
`app.rs`.  Rust `String`/`&str` values are modelled as `List Char` (the sequence
of Unicode scalar values of the string); byte-indexed operations account for
UTF-8 byte widths via `Char.utf8Size`.  Filesystem and metadata-library effects
are modelled by passing the relevant outcome (the decoded comment field, or the
codec result) explicitly.
-/

/-- The NUL character `char::from(0)` used by `load_tags`. -/
def nulChar : Char := Char.ofNat 0

/-- Rust `char::is_whitespace`: the Unicode White_Space property
(U+0009–U+000D, U+0020, U+0085, U+00A0, U+1680, U+2000–U+200A, U+2028,
U+2029, U+202F, U+205F, U+3000). -/
def isRustWhitespace (c : Char) : Bool :=
  let n := c.toNat
  (9 ≤ n && n ≤ 13) || n = 32 || n = 133 || n = 160 || n = 0x1680 ||
  (0x2000 ≤ n && n ≤ 0x200A) || n = 0x2028 || n = 0x2029 ||
  n = 0x202F || n = 0x205F || n = 0x3000

/-- Rust `str::trim_start`. -/
def trimStart (s : List Char) : List Char := s.dropWhile isRustWhitespace

/-- Rust `str::trim_end`. -/
def trimEnd (s : List Char) : List Char :=
  (s.reverse.dropWhile isRustWhitespace).reverse

/-- Rust `str::trim`. -/
def rustTrim (s : List Char) : List Char := trimEnd (trimStart s)

/-- Rust `str::trim_matches(char::from(0))`: remove all leading and trailing
NUL characters (interior NULs are kept). -/
def trimMatchesNul (s : List Char) : List Char :=
  ((s.dropWhile (fun c => c = nulChar)).reverse.dropWhile
    (fun c => c = nulChar)).reverse

/-- Rust `str::split(';')`: the pieces between the semicolons, empty pieces
included. -/
def splitSemi : List Char → List (List Char)
  | [] => [[]]
  | c :: cs =>
    match splitSemi cs with
    | [] => [[c]]
    | p :: ps => if c = ';' then [] :: p :: ps else (c :: p) :: ps

/-- Rust `[String]::join(";")`. -/
def joinSemi : List (List Char) → List Char
  | [] => []
  | [t] => t
  | t :: t2 :: ts => t ++ ';' :: joinSemi (t2 :: ts)

/-- Drop the first `n` BYTES of a UTF-8 string given as its characters:
Rust's `&content[n..]`.  `none` models the panic raised when `n` is past the
end of the string or not on a character boundary. -/
def dropUtf8Bytes : Nat → List Char → Option (List Char)
  | 0, cs => some cs
  | _ + 1, [] => none
  | n + 1, c :: cs =>
    if c.utf8Size ≤ n + 1 then dropUtf8Bytes (n + 1 - c.utf8Size) cs else none

/-- ASCII lowercasing of one character, as applied by Rust `to_lowercase` to
the extension characters compared here (all comparisons are against ASCII
literals, and no non-ASCII character lowercases to a letter of
png/jpg/jpeg/webp). -/
def asciiLower (c : Char) : Char :=
  if 65 ≤ c.toNat && c.toNat ≤ 90 then Char.ofNat (c.toNat + 32) else c

/-- A filesystem path, reduced to the file name the format checks look at. -/
structure RPath where
  fileName : List Char
deriving DecidableEq, Repr

/-- The part of `name` after its last `.`; callers guarantee `.` occurs. -/
def afterLastDot (s : List Char) : List Char :=
  (s.reverse.takeWhile (fun c => c ≠ '.')).reverse

/-- Rust `Path::extension` on a plain file name: `none` when there is no
embedded `.`, or when the name starts with `.` and has no further `.`
(hidden-file rule); otherwise the portion after the final `.`. -/
def rustExtension (name : List Char) : Option (List Char) :=
  match name with
  | [] => none
  | _ :: rest => if rest.contains '.' then some (afterLastDot rest) else none

/-- `tag_manager::is_supported_format`: extension (case-insensitive) is one of
png, jpg, jpeg, webp. -/
def is_supported_format (p : RPath) : Bool :=
  match rustExtension p.fileName with
  | some ext =>
    let l := ext.map asciiLower
    l = "png".toList || l = "jpg".toList || l = "jpeg".toList ||
      l = "webp".toList
  | none => false

/-- Outcome of the metadata read in `load_tags`: no readable metadata, a
container without a UserComment tag, or a UserComment whose raw bytes decode
(by `String::from_utf8_lossy`) to the given character sequence. -/
inductive ReadResult where
  | noMetadata : ReadResult
  | noComment : ReadResult
  | comment (text : List Char) : ReadResult
deriving DecidableEq, Repr

/-- The body of `load_tags` processing a present UserComment (lines 25–44 of
`tag_manager.rs`): lossy-decoded text → trim → strip an 8-byte marker if the
text starts with `ASCII` or `UNICODE` (Rust `&content[8..]`, which panics —
modelled as `none` — when byte 8 is past the end or not a char boundary) →
trim NULs from both ends → split on `;`, trim pieces, drop empty pieces. -/
def decodeUserComment (text : List Char) : Option (List (List Char)) :=
  let content := rustTrim text
  let stripped : Option (List Char) :=
    if "ASCII".toList.isPrefixOf content then dropUtf8Bytes 8 content
    else if "UNICODE".toList.isPrefixOf content then dropUtf8Bytes 8 content
    else some content
  match stripped with
  | none => none
  | some s =>
    let clean := trimMatchesNul s
    some (((splitSemi clean).map rustTrim).filter (fun t => t ≠ []))

/-- `tag_manager::load_tags`.  `none` models a panic; `some tags` a normal
return. -/
def load_tags (p : RPath) (r : ReadResult) : Option (List (List Char)) :=
  if is_supported_format p = false then some []
  else
    match r with
    | ReadResult.comment text => decodeUserComment text
    | _ => some []

/-- The single file the codec touches: its stored UserComment text, if any. -/
structure FileState where
  comment : Option (List Char)
deriving DecidableEq, Repr

/-- `tag_manager::save_tags`: refuse unsupported formats before touching the
file; otherwise join the tags with `;` and write the result into the
UserComment field (the metadata write itself is taken to succeed). -/
def save_tags (p : RPath) (tags : List (List Char)) (fs : FileState) :
    Except (List Char) Unit × FileState :=
  if is_supported_format p = false then
    (Except.error "Unsupported format".toList, fs)
  else
    (Except.ok (), { comment := some (joinSemi tags) })

/-- `tag_manager::add_tag`. -/
def add_tag (tags : List (List Char)) (tag : List Char) : List (List Char) :=
  let t := rustTrim tag
  if t ≠ [] && !(tags.contains t) then tags ++ [t] else tags

/-- `tag_manager::remove_tag`. -/
def remove_tag (tags : List (List Char)) (tag : List Char) :
    List (List Char) :=
  tags.filter (fun t => t ≠ tag)

/-- `tag_manager::toggle_tag`: returns the Rust function's boolean result
together with the updated list. -/
def toggle_tag (tags : List (List Char)) (tag : List Char) :
    Bool × List (List Char) :=
  let t := rustTrim tag
  if tags.contains t then (false, remove_tag tags t)
  else (true, add_tag tags t)

/-- `slideshow.rs`: the `Slideshow` struct.  The `last_switch : Instant` field
is not representable; `update`'s elapsed-time comparison is passed in as the
boolean `elapsedGeInterval` instead. -/
structure Slideshow where
  is_running : Bool
  images : List RPath
  current_index : Nat
  completed_once : Bool
deriving DecidableEq, Repr

/-- `Slideshow::default`. -/
def Slideshow.init : Slideshow :=
  { is_running := false, images := [], current_index := 0,
    completed_once := false }

/-- `Slideshow::start`. -/
def Slideshow.start (_s : Slideshow) (imgs : List RPath) : Slideshow :=
  { is_running := !imgs.isEmpty, images := imgs, current_index := 0,
    completed_once := false }

/-- `Slideshow::stop`. -/
def Slideshow.stop (s : Slideshow) : Slideshow := { s with is_running := false }

/-- `Slideshow::update`. `elapsedGeInterval` stands for
`last_switch.elapsed().as_secs_f32() >= interval`. -/
def Slideshow.update (s : Slideshow) (elapsedGeInterval : Bool)
    (should_loop : Bool) : Option RPath × Slideshow :=
  if !s.is_running || s.images.isEmpty then (none, s)
  else if elapsedGeInterval then
    let i := s.current_index + 1
    if s.images.length ≤ i then
      if should_loop then
        let s2 := { s with current_index := 0, completed_once := true }
        (s2.images.get? 0, s2)
      else
        (none, { s with current_index := i, completed_once := true,
                        is_running := false })
    else
      ({ s with current_index := i }.images.get? i,
       { s with current_index := i })
  else (none, s)

/-- `image_viewer.rs`: the `ImageViewer` struct.  `texture_uri` holds the path
whose `file://` URI the Rust code derives (the derivation itself needs the
filesystem and is irrelevant to navigation). -/
structure ImageViewer where
  current_image : Option RPath
  images_in_dir : List RPath
  current_index : Nat
  texture_uri : Option RPath
deriving DecidableEq, Repr

/-- The new index computed by `ImageViewer::prev`: `index - 1`, wrapping to
`len - 1` when the index is 0. -/
def prevIndex (v : ImageViewer) : Nat :=
  if 0 < v.current_index then v.current_index - 1
  else v.images_in_dir.length - 1

/-- `ImageViewer::prev`. -/
def ImageViewer.prev (v : ImageViewer) : ImageViewer :=
  if v.images_in_dir.isEmpty then v
  else
    match v.images_in_dir.get? (prevIndex v) with
    | some p =>
      { v with current_index := prevIndex v, current_image := some p,
               texture_uri := some p }
    | none => { v with current_index := prevIndex v }

/-- The new index computed by `ImageViewer::next`: `(index + 1) mod len`. -/
def nextIndex (v : ImageViewer) : Nat :=
  (v.current_index + 1) % v.images_in_dir.length

/-- `ImageViewer::next`. -/
def ImageViewer.next (v : ImageViewer) : ImageViewer :=
  if v.images_in_dir.isEmpty then v
  else
    match v.images_in_dir.get? (nextIndex v) with
    | some p =>
      { v with current_index := nextIndex v, current_image := some p,
               texture_uri := some p }
    | none => { v with current_index := nextIndex v }

/-- The tag-session slice of `app.rs`'s `InnerApp` state: the fields read and
written by `save_tags` and by the add-tag handler of `show_right_sidebar`
(`config.auto_save` folded in as `auto_save`). -/
structure AppState where
  current_image : Option RPath
  current_tags : List (List Char)
  tags_modified : Bool
  new_tag_input : List Char
  status_message : List Char
  auto_save : Bool
deriving DecidableEq, Repr

/-- `InnerApp::save_tags` (app.rs lines 159–168).  The effectful call
`tag_manager::save_tags(path, &tags)` is abstracted by its result `codec`. -/
def appSaveTags (codec : Except (List Char) Unit) (st : AppState) : AppState :=
  match st.current_image with
  | none => st
  | some _ =>
    match codec with
    | Except.error e =>
      { st with status_message := "Error saving tags: ".toList ++ e }
    | Except.ok _ =>
      { st with tags_modified := false,
                status_message := "Tags saved".toList }

/-- The add-tag branch of `InnerApp::show_right_sidebar` (app.rs lines
372–387): on a non-empty raw input, call `add_tag`, clear the input box, set
`tags_modified`, and auto-save when configured. -/
def appAddTagHandler (codec : Except (List Char) Unit) (st : AppState) :
    AppState :=
  if st.new_tag_input ≠ [] then
    let st1 := { st with
      current_tags := add_tag st.current_tags st.new_tag_input,
      new_tag_input := [], tags_modified := true }
    if st.auto_save then appSaveTags codec st1 else st1
  else st

/-! ## Helper lemmas -/

theorem splitSemi_ne_nil (s : List Char) : splitSemi s ≠ [] := by
  cases s with
  | nil => simp [splitSemi]
  | cons c cs =>
    simp only [splitSemi]
    cases h : splitSemi cs with
    | nil => simp
    | cons p ps =>
      by_cases hc : c = ';' <;> simp [hc]

theorem dropWhile_head_false (p : Char → Bool) (l : List Char) (c : Char)
    (h : (l.dropWhile p).head? = some c) : p c = false := by
  induction l with
  | nil => simp [List.dropWhile] at h
  | cons a t ih =>
    rw [List.dropWhile] at h
    by_cases hp : p a
    · exact ih (by simpa [hp] using h)
    · have : a = c := by simpa [hp] using h
      subst this
      simpa using hp

theorem dropWhile_eq_self_of_head (p : Char → Bool) (l : List Char)
    (h : ∀ c, l.head? = some c → p c = false) : l.dropWhile p = l := by
  cases l with
  | nil => rfl
  | cons a t => simp [List.dropWhile, h a rfl]

theorem dropWhile_append_of_all (p : Char → Bool) (l1 l2 : List Char)
    (h : ∀ c ∈ l1, p c = true) : (l1 ++ l2).dropWhile p = l2.dropWhile p := by
  induction l1 with
  | nil => rfl
  | cons a t ih =>
    have ha : p a = true := h a (by simp)
    simp only [List.cons_append, List.dropWhile, ha]
    exact ih (fun c hc => h c (by simp [hc]))

theorem length_dropWhile_le' (p : Char → Bool) (l : List Char) :
    (l.dropWhile p).length ≤ l.length :=
  (List.dropWhile_suffix p).sublist.length_le

theorem length_dropWhile_lt (p : Char → Bool) (l : List Char) (c : Char)
    (hc : l.head? = some c) (hp : p c = true) :
    (l.dropWhile p).length < l.length := by
  cases l with
  | nil => simp at hc
  | cons a t =>
    have : a = c := by simpa using hc
    subst this
    simp only [List.dropWhile, hp]
    exact Nat.lt_succ_of_le (length_dropWhile_le' p t)

theorem length_trimEnd_le (l : List Char) : (trimEnd l).length ≤ l.length := by
  unfold trimEnd
  simpa using length_dropWhile_le' isRustWhitespace l.reverse

theorem head?_append_ne_nil (l l2 : List Char) (h : l ≠ []) :
    (l ++ l2).head? = l.head? := by
  cases l with
  | nil => exact absurd rfl h
  | cons a t => rfl

theorem rustTrim_eq_self_head (t : List Char) (h : rustTrim t = t) (c : Char)
    (hc : t.head? = some c) : isRustWhitespace c = false := by
  by_contra hw
  have hw' : isRustWhitespace c = true := by
    cases hiw : isRustWhitespace c
    · exact absurd hiw hw
    · rfl
  have h1 : (trimStart t).length < t.length :=
    length_dropWhile_lt isRustWhitespace t c hc hw'
  have h2 : (rustTrim t).length ≤ (trimStart t).length :=
    length_trimEnd_le (trimStart t)
  rw [h] at h2
  omega

theorem getLast?_of_suffix (u t : List Char) (hs : u <:+ t) (hu : u ≠ []) :
    t.getLast? = u.getLast? := by
  obtain ⟨pre, hpre⟩ := hs
  rw [← hpre]
  exact List.getLast?_append_of_ne_nil pre hu

theorem rustTrim_eq_self_last (t : List Char) (h : rustTrim t = t) (c : Char)
    (hc : t.getLast? = some c) : isRustWhitespace c = false := by
  by_contra hw
  have hw' : isRustWhitespace c = true := by
    cases hiw : isRustWhitespace c
    · exact absurd hiw hw
    · rfl
  have htne : t ≠ [] := by
    intro he
    rw [he] at hc
    simp at hc
  have hts : trimStart t ≠ [] := by
    intro he
    have : rustTrim t = [] := by simp [rustTrim, he, trimEnd]
    rw [h] at this
    exact htne this
  have hlast : (trimStart t).getLast? = some c := by
    have := getLast?_of_suffix (trimStart t) t (List.dropWhile_suffix _) hts
    rw [← this]
    exact hc
  have hrev : (trimStart t).reverse.head? = some c := by
    rw [List.head?_reverse]
    exact hlast
  have h1 : ((trimStart t).reverse.dropWhile isRustWhitespace).length <
      (trimStart t).reverse.length :=
    length_dropWhile_lt isRustWhitespace _ c hrev hw'
  have h2 : (rustTrim t).length < (trimStart t).length := by
    unfold rustTrim trimEnd
    simpa using h1
  have h3 : (trimStart t).length ≤ t.length := length_dropWhile_le' _ t
  rw [h] at h2
  omega

theorem trimStart_eq_self_of_head (t : List Char)
    (h : ∀ c, t.head? = some c → isRustWhitespace c = false) :
    trimStart t = t :=
  dropWhile_eq_self_of_head _ _ h

theorem trimEnd_eq_self_of_last (t : List Char)
    (h : ∀ c, t.getLast? = some c → isRustWhitespace c = false) :
    trimEnd t = t := by
  unfold trimEnd
  rw [dropWhile_eq_self_of_head _ _ (fun c hc => h c (by rwa [List.head?_reverse] at hc))]
  exact t.reverse_reverse

theorem rustTrim_eq_self_of_ends (t : List Char)
    (hh : ∀ c, t.head? = some c → isRustWhitespace c = false)
    (hl : ∀ c, t.getLast? = some c → isRustWhitespace c = false) :
    rustTrim t = t := by
  unfold rustTrim
  rw [trimStart_eq_self_of_head t hh]
  exact trimEnd_eq_self_of_last t hl

theorem trimMatchesNul_eq_self_of_ends (t : List Char)
    (hh : ∀ c, t.head? = some c → c ≠ nulChar)
    (hl : ∀ c, t.getLast? = some c → c ≠ nulChar) :
    trimMatchesNul t = t := by
  unfold trimMatchesNul
  rw [dropWhile_eq_self_of_head _ t (fun c hc => by
    simp only [decide_eq_false_iff_not]
    exact hh c hc)]
  rw [dropWhile_eq_self_of_head _ t.reverse (fun c hc => by
    rw [List.head?_reverse] at hc
    simp only [decide_eq_false_iff_not]
    exact hl c hc)]
  exact t.reverse_reverse

theorem isPrefixOf_append_cons (m a s : List Char) (x : Char)
    (hm : m.isPrefixOf a = false) (hx : x ∉ m) :
    m.isPrefixOf (a ++ x :: s) = false := by
  induction m generalizing a with
  | nil => simp [List.isPrefixOf] at hm
  | cons c m' ih =>
    cases a with
    | nil =>
      have hcx : c ≠ x := by
        intro he
        exact hx (by simp [he])
      simp [List.isPrefixOf, hcx]
    | cons y a' =>
      simp only [List.isPrefixOf, Bool.and_eq_false_iff] at hm
      simp only [List.cons_append, List.isPrefixOf, Bool.and_eq_false_iff]
      rcases hm with hm | hm
      · exact Or.inl hm
      · by_cases hcy : (c == y) = true
        · exact Or.inr (ih a' hm (fun hmem => hx (by simp [hmem])))
        · exact Or.inl (by simpa using hcy)

theorem splitSemi_append_no_semi (t p : List Char) (ps : List (List Char))
    (s : List Char) (ht : ';' ∉ t) (hs : splitSemi s = p :: ps) :
    splitSemi (t ++ s) = (t ++ p) :: ps := by
  induction t with
  | nil => simpa using hs
  | cons c t' ih =>
    have hc : c ≠ ';' := fun he => ht (by simp [he])
    have ih' := ih (fun hm => ht (by simp [hm]))
    simp only [List.cons_append, splitSemi, ih', hc, if_false]
    rw [show t'.append s = t' ++ s from rfl, ih']

theorem joinSemi_ne_nil (tags : List (List Char)) (hne : tags ≠ [])
    (hall : ∀ t ∈ tags, t ≠ []) : joinSemi tags ≠ [] := by
  match tags with
  | [] => exact absurd rfl hne
  | [t] => exact hall t (by simp)
  | t :: t2 :: ts =>
    simp only [joinSemi]
    intro he
    have := List.append_eq_nil.mp he
    simp at this

theorem splitSemi_joinSemi (tags : List (List Char)) (hne : tags ≠ [])
    (hall : ∀ t ∈ tags, ';' ∉ t) : splitSemi (joinSemi tags) = tags := by
  match tags with
  | [] => exact absurd rfl hne
  | [t] =>
    have : splitSemi (t ++ []) = (t ++ []) :: [] :=
      splitSemi_append_no_semi t [] [] [] (hall t (by simp)) rfl
    simpa [joinSemi] using this
  | t :: t2 :: ts =>
    have ih : splitSemi (joinSemi (t2 :: ts)) = t2 :: ts :=
      splitSemi_joinSemi (t2 :: ts) (by simp)
        (fun u hu => hall u (by simp [hu]))
    have hsplit : splitSemi (';' :: joinSemi (t2 :: ts)) =
        [] :: t2 :: ts := by
      simp only [splitSemi, ih]
      simp
    have := splitSemi_append_no_semi t [] (t2 :: ts)
      (';' :: joinSemi (t2 :: ts)) (hall t (by simp)) hsplit
    simpa [joinSemi] using this

theorem joinSemi_head? (tags : List (List Char)) (t0 : List Char)
    (h0 : tags.head? = some t0) (hne : t0 ≠ []) :
    (joinSemi tags).head? = t0.head? := by
  cases tags with
  | nil => simp at h0
  | cons t rest =>
    have ht : t = t0 := by simpa using h0
    subst ht
    cases rest with
    | nil => rfl
    | cons t2 ts =>
      simp only [joinSemi]
      exact head?_append_ne_nil t _ hne

theorem joinSemi_getLast? (tags : List (List Char)) :
    ∀ tN : List Char, tags.getLast? = some tN → (∀ t ∈ tags, t ≠ []) →
    (joinSemi tags).getLast? = tN.getLast? := by
  induction tags with
  | nil =>
    intro tN hN _
    simp at hN
  | cons t rest ih =>
    intro tN hN hall
    cases rest with
    | nil =>
      have ht : t = tN := by simpa using hN
      subst ht
      rfl
    | cons t2 ts =>
      have hN' : (t2 :: ts).getLast? = some tN := by
        rw [List.getLast?_cons_cons] at hN
        exact hN
      have ihh := ih tN hN' (fun u hu => hall u (by simp [hu]))
      have hjne : joinSemi (t2 :: ts) ≠ [] :=
        joinSemi_ne_nil (t2 :: ts) (by simp) (fun u hu => hall u (by simp [hu]))
      simp only [joinSemi]
      rw [show t ++ ';' :: joinSemi (t2 :: ts) =
        (t ++ [';']) ++ joinSemi (t2 :: ts) by simp]
      rw [List.getLast?_append_of_ne_nil _ hjne]
      exact ihh

theorem filter_eq_self_of_not_contains (tags : List (List Char))
    (a : List Char) (h : a ∉ tags) :
    tags.filter (fun t => t ≠ a) = tags := by
  apply List.filter_eq_self.mpr
  intro u hu
  simp only [ne_eq, decide_eq_true_eq]
  intro he
  exact h (he ▸ hu)

theorem head?_mem (l : List Char) (c : Char) (h : l.head? = some c) :
    c ∈ l := by
  cases l with
  | nil => simp at h
  | cons a t =>
    have : a = c := by simpa using h
    simp [this.symm]

theorem trimEnd_head? (l : List Char) (c : Char)
    (h : (trimEnd l).head? = some c) : l.head? = some c := by
  unfold trimEnd at h
  obtain ⟨pre, hpre⟩ := List.dropWhile_suffix (l := l.reverse)
    (p := isRustWhitespace)
  set d := l.reverse.dropWhile isRustWhitespace with hd
  cases hdc : d.reverse with
  | nil => rw [hdc] at h; simp at h
  | cons x u =>
    rw [hdc] at h
    have hxc : x = c := by simpa using h
    have hl : l = d.reverse ++ pre.reverse := by
      have h2 : (pre ++ d).reverse = l := by rw [hpre, List.reverse_reverse]
      rw [← h2, List.reverse_append]
    rw [hl, hdc, hxc]
    rfl

theorem rustTrim_idem (s : List Char) : rustTrim (rustTrim s) = rustTrim s := by
  have hts : trimStart (rustTrim s) = rustTrim s := by
    apply dropWhile_eq_self_of_head
    intro c hc
    have h1 : (trimStart s).head? = some c := trimEnd_head? (trimStart s) c hc
    exact dropWhile_head_false isRustWhitespace s c (by simpa [trimStart] using h1)
  have hte : trimEnd (trimEnd (trimStart s)) = trimEnd (trimStart s) := by
    unfold trimEnd
    rw [List.reverse_reverse]
    rw [dropWhile_eq_self_of_head _ _ (fun c hc =>
      dropWhile_head_false isRustWhitespace (trimStart s).reverse c hc)]
  show rustTrim (rustTrim s) = rustTrim s
  unfold rustTrim
  rw [show trimStart (trimEnd (trimStart s)) = trimEnd (trimStart s) from hts]
  exact hte

theorem head?_eq_headD (l : List Char) (d : Char) (h : l ≠ []) :
    l.head? = some (l.headD d) := by
  cases l with
  | nil => exact absurd rfl h
  | cons a u => rfl

theorem head?_eq_headD' (l : List (List Char)) (h : l ≠ []) :
    l.head? = some (l.headD []) := by
  cases l with
  | nil => exact absurd rfl h
  | cons a u => rfl

theorem getLast?_eq_getLastD (l : List Char) (d : Char) (h : l ≠ []) :
    l.getLast? = some (l.getLastD d) := by
  induction l with
  | nil => exact absurd rfl h
  | cons a u ih =>
    cases u with
    | nil => rfl
    | cons b v =>
      rw [List.getLast?_cons_cons]
      rw [show (a :: b :: v).getLastD d = (b :: v).getLastD d from rfl]
      exact ih (by simp)

theorem getLast?_eq_getLastD' (l : List (List Char)) (h : l ≠ []) :
    l.getLast? = some (l.getLastD []) := by
  induction l with
  | nil => exact absurd rfl h
  | cons a u ih =>
    cases u with
    | nil => rfl
    | cons b v =>
      rw [List.getLast?_cons_cons]
      rw [show (a :: b :: v).getLastD [] = (b :: v).getLastD [] from rfl]
      exact ih (by simp)

theorem mem_of_getLast?_eq (l : List (List Char)) (a : List Char)
    (h : l.getLast? = some a) : a ∈ l := by
  cases l with
  | nil => simp at h
  | cons x u =>
    have h2 : (x :: u).getLast (by simp) = a := by
      rw [List.getLast?_eq_getLast _ (by simp)] at h
      simpa using h
    rw [← h2]
    exact List.getLast_mem _

theorem map_rustTrim_eq_self (l : List (List Char))
    (h : ∀ a ∈ l, rustTrim a = a) : l.map rustTrim = l := by
  conv_rhs => rw [← List.map_id l]
  exact List.map_congr_left h

/-! ## Claims -/

/-- C1: the claim says `load_tags` never fails or panics for any comment
bytes, and the spec's policy says reads never fail the caller.  The code
violates this: on a supported path whose UserComment raw bytes are exactly
`ASCII` (5 bytes, so trimmed content starts with the marker but is shorter
than 8 bytes), `&content[8..]` panics with a byte-index-out-of-range error.
The model returns `none` (= panic) there. -/
theorem c1_load_panics_on_short_marker :
    load_tags ⟨"a.png".toList⟩ (ReadResult.comment "ASCII".toList) = none ∧
    load_tags ⟨"a.png".toList⟩ (ReadResult.comment "UNICODE".toList) = none := by
  exact ⟨rfl, rfl⟩

/-- C3: for every path whose extension is not png/jpg/jpeg/webp
(case-insensitively, or with no extension at all), `load_tags` returns the
empty TagList for every read outcome, and `save_tags` returns the
UnsupportedFormat error with the file state unchanged. -/
theorem c3_unsupported_format (p : RPath)
    (h : (rustExtension p.fileName).map (fun e => e.map asciiLower) ∉
      [some "png".toList, some "jpg".toList, some "jpeg".toList,
       some "webp".toList]) :
    (∀ r, load_tags p r = some []) ∧
    (∀ tags fs, save_tags p tags fs =
      (Except.error "Unsupported format".toList, fs)) := by
  have hsup : is_supported_format p = false := by
    unfold is_supported_format
    cases hext : rustExtension p.fileName with
    | none => rfl
    | some ext =>
      rw [hext] at h
      simp only [Option.map_some', List.mem_cons, List.mem_singleton,
        not_or] at h
      obtain ⟨h1, h2, h3, h4⟩ := h
      have e1 : ext.map asciiLower ≠ "png".toList := fun he => h1 (by rw [he])
      have e2 : ext.map asciiLower ≠ "jpg".toList := fun he => h2 (by rw [he])
      have e3 : ext.map asciiLower ≠ "jpeg".toList := fun he => h3 (by rw [he])
      have e4 : ext.map asciiLower ≠ "webp".toList :=
        fun he => h4.1 (by rw [he])
      simp only [Bool.or_eq_false_iff, decide_eq_false_iff_not]
      exact ⟨⟨⟨by simpa using e1, by simpa using e2⟩, by simpa using e3⟩,
        by simpa using e4⟩
  constructor
  · intro r
    unfold load_tags
    rw [hsup]
    simp
  · intro tags fs
    unfold save_tags
    rw [hsup]
    simp

/-- Witness for C3 at the spec's own examples: a `.bmp` load and a `.gif`
save. -/
theorem c3_unsupported_format_witness :
    load_tags ⟨"a.bmp".toList⟩ ReadResult.noMetadata = some [] ∧
    save_tags ⟨"a.gif".toList⟩ ["x".toList] ⟨some "old".toList⟩ =
      (Except.error "Unsupported format".toList, ⟨some "old".toList⟩) :=
  ⟨(c3_unsupported_format ⟨"a.bmp".toList⟩ (by decide)).1 ReadResult.noMetadata,
   (c3_unsupported_format ⟨"a.gif".toList⟩ (by decide)).2 ["x".toList]
     ⟨some "old".toList⟩⟩

/-- C4: after `start([a,b,c])`, three `update` calls with elapsed ≥ interval
and `loop = false` yield `some b`, `some c`, `none`; after the third the
slideshow is stopped with `completed_once` set, and no further `update`
(whatever its elapsed flag and loop flag) advances or changes the state. -/
theorem c4_slideshow_completion (s : Slideshow) (a b c : RPath) :
    ((s.start [a, b, c]).update true false).1 = some b ∧
    ((((s.start [a, b, c]).update true false).2.update true false)).1 =
      some c ∧
    (((((s.start [a, b, c]).update true false).2.update true
        false)).2.update true false).1 = none ∧
    (((((s.start [a, b, c]).update true false).2.update true
        false)).2.update true false).2.is_running = false ∧
    (((((s.start [a, b, c]).update true false).2.update true
        false)).2.update true false).2.completed_once = true ∧
    (∀ eg sl,
      ((((((s.start [a, b, c]).update true false).2.update true
        false)).2.update true false).2.update eg sl) =
      (none, (((((s.start [a, b, c]).update true false).2.update true
        false)).2.update true false).2)) := by
  refine ⟨rfl, rfl, rfl, rfl, rfl, ?_⟩
  intro eg sl
  rfl

/-- C8: when the codec save fails, `InnerApp::save_tags` reports the error in
the status line, leaves `tags_modified` (the dirty flag) exactly as it was,
and leaves the in-memory tag list unchanged; when it succeeds, the dirty flag
is cleared and the list is still unchanged. -/
theorem c8_save_session (st : AppState) (e : List Char)
    (h : st.current_image.isSome = true) :
    (appSaveTags (Except.error e) st).tags_modified = st.tags_modified ∧
    (appSaveTags (Except.error e) st).current_tags = st.current_tags ∧
    (appSaveTags (Except.error e) st).status_message =
      "Error saving tags: ".toList ++ e ∧
    (appSaveTags (Except.ok ()) st).tags_modified = false ∧
    (appSaveTags (Except.ok ()) st).current_tags = st.current_tags := by
  obtain ⟨p, hp⟩ := Option.isSome_iff_exists.mp h
  simp [appSaveTags, hp]

/-- Witness for C8 at a concrete dirty session holding one tag. -/
theorem c8_save_session_witness :
    (appSaveTags (Except.error "disk full".toList)
      ⟨some ⟨"a.png".toList⟩, ["x".toList], true, [], [], false⟩).tags_modified
        = true ∧
    (appSaveTags (Except.error "disk full".toList)
      ⟨some ⟨"a.png".toList⟩, ["x".toList], true, [], [], false⟩).current_tags
        = ["x".toList] ∧
    (appSaveTags (Except.ok ())
      ⟨some ⟨"a.png".toList⟩, ["x".toList], true, [], [], false⟩).tags_modified
        = false :=
  have h := c8_save_session
    ⟨some ⟨"a.png".toList⟩, ["x".toList], true, [], [], false⟩
    "disk full".toList (by decide)
  ⟨h.1, h.2.1, h.2.2.2.1⟩

/-- C10 counterexample: the claim says `toggle_tag` returns `true` for every
whitespace-only input on every TagList, leaving the list unchanged; but on
the list containing the empty tag, toggling a whitespace-only string finds
the trimmed empty string present, removes it and returns `false`. -/
theorem c10_counterexample :
    (toggle_tag [([] : List Char)] " ".toList).1 = false ∧
    (toggle_tag [([] : List Char)] " ".toList).2 = [] := by
  exact ⟨rfl, rfl⟩

/-- C10 (amended): `toggle_tag` returns `true` exactly when the trimmed tag
was absent from the list; and for input whose trim is empty, PROVIDED the
list does not contain the empty string, it returns `true` and leaves the
list unchanged with no empty tag in it. -/
theorem c10_toggle_result (tags : List (List Char)) (t : List Char) :
    ((toggle_tag tags t).1 = true ↔ rustTrim t ∉ tags) ∧
    (rustTrim t = [] → ([] : List Char) ∉ tags →
      toggle_tag tags t = (true, tags) ∧ ([] : List Char) ∉ (toggle_tag tags t).2) := by
  constructor
  · by_cases hc : rustTrim t ∈ tags
    · have hc' : tags.contains (rustTrim t) = true := by simpa using hc
      simp [toggle_tag, hc', hc]
    · have hc' : tags.contains (rustTrim t) = false := by simpa using hc
      simp [toggle_tag, hc', hc]
  · intro he hmem
    have hcn : rustTrim t ∉ tags := by
      rw [he]
      exact hmem
    have hadd : add_tag tags (rustTrim t) = tags := by
      rw [he]
      simp [add_tag, show rustTrim [] = [] from rfl]
    constructor
    · simp [toggle_tag, hcn, hadd]
    · simp [toggle_tag, hcn, hadd]
      exact hmem

/-- Witness for C10 on the list `[a]` with input a single blank. -/
theorem c10_toggle_result_witness :
    ((toggle_tag ["a".toList] " ".toList).1 = true ↔
      rustTrim " ".toList ∉ ["a".toList]) ∧
    toggle_tag ["a".toList] " ".toList = (true, ["a".toList]) :=
  ⟨(c10_toggle_result ["a".toList] " ".toList).1,
   ((c10_toggle_result ["a".toList] " ".toList).2 (by decide) (by decide)).1⟩

/-- C7 counterexample: adding a tag that is already present leaves the list
unchanged but SETS the dirty flag (the handler sets `tags_modified = true`
unconditionally on non-empty input), contradicting the claim that the dirty
flag is unaffected. -/
theorem c7_counterexample :
    (appAddTagHandler (Except.ok ())
      ⟨none, ["a".toList], false, "a".toList, [], false⟩).current_tags =
        ["a".toList] ∧
    (appAddTagHandler (Except.ok ())
      ⟨none, ["a".toList], false, "a".toList, [], false⟩).tags_modified =
        true := by
  exact ⟨rfl, rfl⟩

/-- C7 (amended): with auto-save off, adding an already-present tag (exact
match of the trimmed input) or an input that trims to empty leaves the tag
list unchanged — no duplicate is appended — but the dirty flag becomes `true`
whenever the raw input is non-empty (and keeps its value on empty input);
the pure `add_tag` also ignores empty-after-trimming input. -/
theorem c7_add_existing_noop (st : AppState) (codec : Except (List Char) Unit)
    (hauto : st.auto_save = false)
    (h : rustTrim st.new_tag_input ∈ st.current_tags ∨
      rustTrim st.new_tag_input = []) :
    (appAddTagHandler codec st).current_tags = st.current_tags ∧
    (appAddTagHandler codec st).tags_modified =
      (if st.new_tag_input = [] then st.tags_modified else true) := by
  have hadd : add_tag st.current_tags st.new_tag_input = st.current_tags := by
    rcases h with h | h
    · simp [add_tag, h]
    · simp [add_tag, h]
  by_cases hin : st.new_tag_input = []
  · simp [appAddTagHandler, hin]
  · simp [appAddTagHandler, hin, hauto, hadd]

/-- Witness for C7: adding `"a"` to a clean session already holding `"a"`. -/
theorem c7_add_existing_noop_witness :
    (appAddTagHandler (Except.ok ())
      ⟨none, ["a".toList], false, "a".toList, [], false⟩).current_tags =
      ["a".toList] ∧
    (appAddTagHandler (Except.ok ())
      ⟨none, ["a".toList], false, "a".toList, [], false⟩).tags_modified =
      (if ("a".toList : List Char) = [] then false else true) :=
  c7_add_existing_noop ⟨none, ["a".toList], false, "a".toList, [], false⟩
    (Except.ok ()) (by decide) (Or.inl (by decide))

/-- C6 counterexample: the claim says toggling twice restores the list even
when the tag is not at the end; but toggling `"a"` twice on `["a","b"]`
removes `"a"` and re-appends it at the END, yielding `["b","a"]`. -/
theorem c6_counterexample :
    (toggle_tag (toggle_tag ["a".toList, "b".toList] "a".toList).2
      "a".toList).2 = ["b".toList, "a".toList] ∧
    ["b".toList, "a".toList] ≠ ["a".toList, "b".toList] := by
  exact ⟨rfl, by decide⟩

/-- C6 (amended): toggling the same tag twice restores the list when the
trimmed tag is absent, or when it is non-empty and occurs exactly once, as
the last element.  (In general the double toggle removes every occurrence
and re-appends a single copy at the end.) -/
theorem c6_toggle_twice (tags : List (List Char)) (t : List Char)
    (h : rustTrim t ∉ tags ∨
      ∃ l, tags = l ++ [rustTrim t] ∧ rustTrim t ∉ l ∧ rustTrim t ≠ []) :
    (toggle_tag (toggle_tag tags t).2 t).2 = tags := by
  have hidem : rustTrim (rustTrim t) = rustTrim t := rustTrim_idem t
  rcases h with h | ⟨l, hl, hnotin, hne⟩
  · by_cases he : rustTrim t = []
    · have hadd : add_tag tags (rustTrim t) = tags := by
        rw [he]
        simp [add_tag, show rustTrim [] = [] from rfl]
      simp [toggle_tag, h, hadd]
    · have hadd : add_tag tags (rustTrim t) = tags ++ [rustTrim t] := by
        simp [add_tag, hidem, he, h]
      have hrem : remove_tag (tags ++ [rustTrim t]) (rustTrim t) = tags := by
        unfold remove_tag
        rw [List.filter_append]
        rw [filter_eq_self_of_not_contains tags _ h]
        simp
      simp [toggle_tag, h, hadd, hrem]
  · subst hl
    have hrem : remove_tag (l ++ [rustTrim t]) (rustTrim t) = l := by
      unfold remove_tag
      rw [List.filter_append]
      rw [filter_eq_self_of_not_contains l _ hnotin]
      simp
    have hadd : add_tag l (rustTrim t) = l ++ [rustTrim t] := by
      simp [add_tag, hidem, hne, hnotin]
    have hmm : rustTrim t ∈ l ++ [rustTrim t] := by simp
    simp [toggle_tag, hmm, hrem, hnotin, hadd]

/-- Witness for C6 in both allowed situations: tag absent, and tag present
once at the end. -/
theorem c6_toggle_twice_witness :
    (toggle_tag (toggle_tag ["b".toList] "a".toList).2 "a".toList).2 =
      ["b".toList] ∧
    (toggle_tag (toggle_tag ["b".toList, "a".toList] "a".toList).2
      "a".toList).2 = ["b".toList, "a".toList] :=
  ⟨c6_toggle_twice ["b".toList] "a".toList (Or.inl (by decide)),
   c6_toggle_twice ["b".toList, "a".toList] "a".toList
     (Or.inr ⟨["b".toList], by decide, by decide, by decide⟩)⟩

theorem ImageViewer_next_spec (v : ImageViewer)
    (hne : v.images_in_dir ≠ []) :
    v.next.images_in_dir = v.images_in_dir ∧
    v.next.current_index =
      (v.current_index + 1) % v.images_in_dir.length ∧
    v.next.current_image = v.images_in_dir.get?
      ((v.current_index + 1) % v.images_in_dir.length) := by
  have hlen : 0 < v.images_in_dir.length := List.length_pos.mpr hne
  have hlt : (v.current_index + 1) % v.images_in_dir.length <
      v.images_in_dir.length := Nat.mod_lt _ hlen
  obtain ⟨p, hp⟩ : ∃ p, v.images_in_dir.get?
      ((v.current_index + 1) % v.images_in_dir.length) = some p := by
    rw [List.get?_eq_get hlt]
    exact ⟨_, rfl⟩
  have hemp : v.images_in_dir.isEmpty = false := by
    simpa [List.isEmpty_iff] using hne
  simp only [ImageViewer.next, nextIndex, hemp, Bool.false_eq_true, if_false,
    hp]
  exact ⟨trivial, trivial, trivial⟩

theorem ImageViewer_prev_spec (v : ImageViewer)
    (hne : v.images_in_dir ≠ [])
    (h : v.current_index < v.images_in_dir.length) :
    v.prev.images_in_dir = v.images_in_dir ∧
    v.prev.current_index = (v.current_index + (v.images_in_dir.length - 1)) %
      v.images_in_dir.length ∧
    v.prev.current_image = v.images_in_dir.get?
      ((v.current_index + (v.images_in_dir.length - 1)) %
        v.images_in_dir.length) := by
  have hlen : 0 < v.images_in_dir.length := List.length_pos.mpr hne
  have hidx : (if 0 < v.current_index then v.current_index - 1
      else v.images_in_dir.length - 1) =
      (v.current_index + (v.images_in_dir.length - 1)) %
        v.images_in_dir.length := by
    by_cases hc : 0 < v.current_index
    · rw [if_pos hc]
      rw [show v.current_index + (v.images_in_dir.length - 1) =
        (v.current_index - 1) + v.images_in_dir.length by omega]
      rw [Nat.add_mod_right]
      exact (Nat.mod_eq_of_lt (by omega)).symm
    · rw [if_neg hc]
      rw [show v.current_index + (v.images_in_dir.length - 1) =
        v.images_in_dir.length - 1 by omega]
      exact (Nat.mod_eq_of_lt (by omega)).symm
  have hlt : (v.current_index + (v.images_in_dir.length - 1)) %
      v.images_in_dir.length < v.images_in_dir.length := Nat.mod_lt _ hlen
  obtain ⟨p, hp⟩ : ∃ p, v.images_in_dir.get?
      ((v.current_index + (v.images_in_dir.length - 1)) %
        v.images_in_dir.length) = some p := by
    rw [List.get?_eq_get hlt]
    exact ⟨_, rfl⟩
  have hemp : v.images_in_dir.isEmpty = false := by
    simpa [List.isEmpty_iff] using hne
  have hp' : v.images_in_dir.get? (prevIndex v) = some p := by
    unfold prevIndex
    rw [hidx]
    exact hp
  simp only [ImageViewer.prev, hemp, Bool.false_eq_true, if_false, hp',
    prevIndex, hidx, hp]
  exact ⟨trivial, trivial, trivial⟩

theorem next_iter_spec (k : Nat) (v : ImageViewer)
    (hne : v.images_in_dir ≠ [])
    (h : v.current_index < v.images_in_dir.length) :
    (ImageViewer.next^[k] v).images_in_dir = v.images_in_dir ∧
    (ImageViewer.next^[k] v).current_index =
      (v.current_index + k) % v.images_in_dir.length ∧
    (0 < k → (ImageViewer.next^[k] v).current_image =
      v.images_in_dir.get?
        ((v.current_index + k) % v.images_in_dir.length)) := by
  induction k with
  | zero =>
    refine ⟨rfl, by simpa using (Nat.mod_eq_of_lt h).symm, ?_⟩
    intro h0
    exact absurd h0 (lt_irrefl 0)
  | succ n ih =>
    obtain ⟨ih1, ih2, ih3⟩ := ih
    rw [Function.iterate_succ_apply']
    have hne' : (ImageViewer.next^[n] v).images_in_dir ≠ [] := by
      rw [ih1]
      exact hne
    obtain ⟨s1, s2, s3⟩ := ImageViewer_next_spec _ hne'
    have harg : v.current_index + n + 1 = v.current_index + (n + 1) := by
      omega
    refine ⟨by rw [s1, ih1], ?_, ?_⟩
    · rw [s2, ih2, ih1, Nat.mod_add_mod, harg]
    · intro _
      rw [s3, ih2, ih1, Nat.mod_add_mod, harg]

theorem prev_iter_spec (k : Nat) (v : ImageViewer)
    (hne : v.images_in_dir ≠ [])
    (h : v.current_index < v.images_in_dir.length) :
    (ImageViewer.prev^[k] v).images_in_dir = v.images_in_dir ∧
    (ImageViewer.prev^[k] v).current_index =
      (v.current_index + k * (v.images_in_dir.length - 1)) %
        v.images_in_dir.length ∧
    (0 < k → (ImageViewer.prev^[k] v).current_image =
      v.images_in_dir.get?
        ((v.current_index + k * (v.images_in_dir.length - 1)) %
          v.images_in_dir.length)) := by
  have hlen : 0 < v.images_in_dir.length := List.length_pos.mpr hne
  induction k with
  | zero =>
    refine ⟨rfl, by simpa using (Nat.mod_eq_of_lt h).symm, ?_⟩
    intro h0
    exact absurd h0 (lt_irrefl 0)
  | succ n ih =>
    obtain ⟨ih1, ih2, ih3⟩ := ih
    rw [Function.iterate_succ_apply']
    have hne' : (ImageViewer.prev^[n] v).images_in_dir ≠ [] := by
      rw [ih1]
      exact hne
    have h' : (ImageViewer.prev^[n] v).current_index <
        (ImageViewer.prev^[n] v).images_in_dir.length := by
      rw [ih1, ih2]
      exact Nat.mod_lt _ hlen
    obtain ⟨s1, s2, s3⟩ := ImageViewer_prev_spec _ hne' h'
    have harg : (v.current_index + n * (v.images_in_dir.length - 1)) +
        (v.images_in_dir.length - 1) =
        v.current_index + (n + 1) * (v.images_in_dir.length - 1) := by
      rw [Nat.succ_mul]
      omega
    refine ⟨by rw [s1, ih1], ?_, ?_⟩
    · rw [s2, ih2, ih1, Nat.mod_add_mod, harg]
    · intro _
      rw [s3, ih2, ih1, Nat.mod_add_mod, harg]

/-- C9: on a non-empty sibling list, `next` steps the index to
`(index + 1) mod len` and `prev` to `index - 1` (wrapping to `len - 1` at
index 0); iterating either one `len` times from any in-range start index
returns the index — and, when the current image was the one at that index,
the current image — to its original value; on an empty list both are
no-ops. -/
theorem c9_navigation (v : ImageViewer) :
    (v.images_in_dir = [] → v.next = v ∧ v.prev = v) ∧
    (v.current_index < v.images_in_dir.length →
      v.next.current_index =
        (v.current_index + 1) % v.images_in_dir.length ∧
      v.prev.current_index = (if v.current_index = 0 then
        v.images_in_dir.length - 1 else v.current_index - 1) ∧
      (ImageViewer.next^[v.images_in_dir.length] v).current_index =
        v.current_index ∧
      (ImageViewer.prev^[v.images_in_dir.length] v).current_index =
        v.current_index ∧
      (v.current_image = v.images_in_dir.get? v.current_index →
        (ImageViewer.next^[v.images_in_dir.length] v).current_image =
          v.current_image ∧
        (ImageViewer.prev^[v.images_in_dir.length] v).current_image =
          v.current_image)) := by
  constructor
  · intro he
    have hemp : v.images_in_dir.isEmpty = true := by simp [he]
    constructor
    · unfold ImageViewer.next
      rw [hemp]
      rfl
    · unfold ImageViewer.prev
      rw [hemp]
      rfl
  · intro h
    have hne : v.images_in_dir ≠ [] := by
      intro he
      rw [he] at h
      simp at h
    have hlen : 0 < v.images_in_dir.length := List.length_pos.mpr hne
    obtain ⟨n1, n2, n3⟩ := next_iter_spec v.images_in_dir.length v hne h
    obtain ⟨p1, p2, p3⟩ := prev_iter_spec v.images_in_dir.length v hne h
    have hni : (v.current_index + v.images_in_dir.length) %
        v.images_in_dir.length = v.current_index := by
      rw [Nat.add_mod_right]
      exact Nat.mod_eq_of_lt h
    have hpi : (v.current_index + v.images_in_dir.length *
        (v.images_in_dir.length - 1)) % v.images_in_dir.length =
        v.current_index := by
      rw [Nat.add_mul_mod_self_left]
      exact Nat.mod_eq_of_lt h
    refine ⟨(ImageViewer_next_spec v hne).2.1, ?_, ?_, ?_, ?_⟩
    · rw [(ImageViewer_prev_spec v hne h).2.1]
      by_cases hc : v.current_index = 0
      · rw [if_pos hc, hc]
        simp
      · rw [if_neg hc]
        rw [show v.current_index + (v.images_in_dir.length - 1) =
          (v.current_index - 1) + v.images_in_dir.length by omega]
        rw [Nat.add_mod_right]
        exact Nat.mod_eq_of_lt (by omega)
    · rw [n2, hni]
    · rw [p2, hpi]
    · intro himg
      constructor
      · rw [n3 hlen, hni, himg]
      · rw [p3 hlen, hpi, himg]

/-- Witness for C9: a three-image directory with the middle image current. -/
theorem c9_navigation_witness :
    (ImageViewer.next^[3] ⟨some ⟨"b.png".toList⟩,
      [⟨"a.png".toList⟩, ⟨"b.png".toList⟩, ⟨"c.png".toList⟩], 1,
      none⟩).current_index = 1 ∧
    (ImageViewer.prev^[3] ⟨some ⟨"b.png".toList⟩,
      [⟨"a.png".toList⟩, ⟨"b.png".toList⟩, ⟨"c.png".toList⟩], 1,
      none⟩).current_index = 1 ∧
    (ImageViewer.next^[3] ⟨some ⟨"b.png".toList⟩,
      [⟨"a.png".toList⟩, ⟨"b.png".toList⟩, ⟨"c.png".toList⟩], 1,
      none⟩).current_image = some ⟨"b.png".toList⟩ :=
  have h := (c9_navigation ⟨some ⟨"b.png".toList⟩,
    [⟨"a.png".toList⟩, ⟨"b.png".toList⟩, ⟨"c.png".toList⟩], 1,
    none⟩).2 (by decide)
  ⟨h.2.2.1, h.2.2.2.1, (h.2.2.2.2 (by decide)).1⟩

theorem mem_of_getLast?_eq_char (l : List Char) (a : Char)
    (h : l.getLast? = some a) : a ∈ l := by
  cases l with
  | nil => simp at h
  | cons x u =>
    have h2 : (x :: u).getLast (by simp) = a := by
      rw [List.getLast?_eq_getLast _ (by simp)] at h
      simpa using h
    rw [← h2]
    exact List.getLast_mem _

theorem isPrefixOf_cons_false (m : List Char) (c0 x : Char) (xs : List Char)
    (hm : m.head? = some c0) (hx : c0 ≠ x) :
    m.isPrefixOf (x :: xs) = false := by
  cases m with
  | nil => simp at hm
  | cons c m' =>
    have : c = c0 := by simpa using hm
    subst this
    simp [List.isPrefixOf, hx]

/-- C5 counterexample: the claim says every NUL anywhere in the remaining
text is removed before splitting; but `trim_matches` only strips NULs at the
two ends, so a NUL embedded between non-NUL characters survives into the
returned tag. -/
theorem c5_counterexample :
    load_tags ⟨"a.png".toList⟩ (ReadResult.comment
      ("tag".toList ++ [nulChar] ++ "1;tag2".toList)) =
      some [("tag".toList ++ [nulChar] ++ "1".toList), "tag2".toList] ∧
    nulChar ∈ ("tag".toList ++ [nulChar] ++ "1".toList) ∧
    load_tags ⟨"a.png".toList⟩ (ReadResult.comment
      ("tag".toList ++ [nulChar] ++ "1;tag2".toList)) ≠
      some ["tag1".toList, "tag2".toList] := by
  decide

/-- C5 (amended): the decode step strips NUL characters only at the two ends
of the remaining text: for any run of NULs padded before and after a text
whose own ends are neither NUL nor whitespace (and which does not start with
a marker), decoding yields exactly the split of the inner text, with any
embedded NULs preserved inside the pieces. -/
theorem c5_nul_boundary_stripping (pre post t : List Char)
    (hpre : ∀ c ∈ pre, c = nulChar) (hpost : ∀ c ∈ post, c = nulChar)
    (hh1 : isRustWhitespace (t.headD nulChar) = false)
    (hh2 : t.headD nulChar ≠ nulChar)
    (hl1 : isRustWhitespace (t.getLastD nulChar) = false)
    (hl2 : t.getLastD nulChar ≠ nulChar)
    (hm1 : "ASCII".toList.isPrefixOf t = false)
    (hm2 : "UNICODE".toList.isPrefixOf t = false) :
    decodeUserComment (pre ++ t ++ post) =
      some (((splitSemi t).map rustTrim).filter (fun x => x ≠ [])) := by
  have hne : t ≠ [] := by
    intro he
    rw [he] at hh2
    exact hh2 rfl
  have hhead : t.head? = some (t.headD nulChar) := head?_eq_headD t nulChar hne
  have hlast : t.getLast? = some (t.getLastD nulChar) :=
    getLast?_eq_getLastD t nulChar hne
  have hwnul : isRustWhitespace nulChar = false := by decide
  have hsassoc : pre ++ t ++ post = pre ++ (t ++ post) := by
    rw [List.append_assoc]
  have hh : ∀ c, (pre ++ t ++ post).head? = some c →
      isRustWhitespace c = false := by
    intro c hc
    cases pre with
    | nil =>
      rw [show ([] : List Char) ++ t ++ post = t ++ post by simp,
        head?_append_ne_nil t post hne, hhead] at hc
      have : t.headD nulChar = c := by simpa using hc
      rw [← this]
      exact hh1
    | cons a pre' =>
      have hac : a = c := by
        rw [show a :: pre' ++ t ++ post =
          a :: (pre' ++ t ++ post) by simp] at hc
        simpa using hc
      rw [← hac, hpre a (by simp)]
      exact hwnul
  have hl : ∀ c, (pre ++ t ++ post).getLast? = some c →
      isRustWhitespace c = false := by
    intro c hc
    cases post with
    | nil =>
      rw [show pre ++ t ++ ([] : List Char) = pre ++ t by simp,
        List.getLast?_append_of_ne_nil pre hne, hlast] at hc
      have : t.getLastD nulChar = c := by simpa using hc
      rw [← this]
      exact hl1
    | cons b post' =>
      rw [List.getLast?_append_of_ne_nil (pre ++ t) (by simp)] at hc
      have : c ∈ b :: post' := mem_of_getLast?_eq_char _ c hc
      rw [hpost c this]
      exact hwnul
  have htrim : rustTrim (pre ++ t ++ post) = pre ++ t ++ post :=
    rustTrim_eq_self_of_ends _ hh hl
  have hjA : "ASCII".toList.isPrefixOf (pre ++ t ++ post) = false := by
    cases pre with
    | nil =>
      rw [show ([] : List Char) ++ t ++ post = t ++ post by simp]
      cases post with
      | nil => simpa using hm1
      | cons b post' =>
        exact isPrefixOf_append_cons _ t post' b hm1 (by
          rw [hpost b (by simp)]
          decide)
    | cons a pre' =>
      rw [show a :: pre' ++ t ++ post = a :: (pre' ++ t ++ post) by simp]
      exact isPrefixOf_cons_false _ 'A' a _ rfl (by
        rw [hpre a (by simp)]
        decide)
  have hjU : "UNICODE".toList.isPrefixOf (pre ++ t ++ post) = false := by
    cases pre with
    | nil =>
      rw [show ([] : List Char) ++ t ++ post = t ++ post by simp]
      cases post with
      | nil => simpa using hm2
      | cons b post' =>
        exact isPrefixOf_append_cons _ t post' b hm2 (by
          rw [hpost b (by simp)]
          decide)
    | cons a pre' =>
      rw [show a :: pre' ++ t ++ post = a :: (pre' ++ t ++ post) by simp]
      exact isPrefixOf_cons_false _ 'U' a _ rfl (by
        rw [hpre a (by simp)]
        decide)
  have htmn : trimMatchesNul (pre ++ t ++ post) = t := by
    unfold trimMatchesNul
    rw [hsassoc]
    rw [dropWhile_append_of_all _ pre (t ++ post) (by
      intro c hc
      rw [hpre c hc]
      simp)]
    rw [dropWhile_eq_self_of_head _ (t ++ post) (by
      intro c hc
      rw [head?_append_ne_nil t post hne, hhead] at hc
      have : t.headD nulChar = c := by simpa using hc
      simp only [decide_eq_false_iff_not]
      rw [← this]
      exact hh2)]
    rw [List.reverse_append]
    rw [dropWhile_append_of_all _ post.reverse t.reverse (by
      intro c hc
      rw [hpost c (by simpa using hc)]
      simp)]
    rw [dropWhile_eq_self_of_head _ t.reverse (by
      intro c hc
      rw [List.head?_reverse, hlast] at hc
      have : t.getLastD nulChar = c := by simpa using hc
      simp only [decide_eq_false_iff_not]
      rw [← this]
      exact hl2)]
    exact t.reverse_reverse
  simp only [decodeUserComment]
  rw [htrim, hjA, hjU]
  simp only [Bool.false_eq_true, if_false]
  rw [htmn]

/-- Witness for C5: one leading and two trailing padding NULs around a text
with an embedded NUL. -/
theorem c5_nul_boundary_stripping_witness :
    decodeUserComment ([nulChar] ++
      ("a".toList ++ [nulChar] ++ "b;c".toList) ++ [nulChar, nulChar]) =
      some (((splitSemi ("a".toList ++ [nulChar] ++ "b;c".toList)).map
        rustTrim).filter (fun x => x ≠ [])) :=
  c5_nul_boundary_stripping [nulChar] [nulChar, nulChar]
    ("a".toList ++ [nulChar] ++ "b;c".toList)
    (by decide) (by decide) (by decide) (by decide) (by decide) (by decide)
    (by decide) (by decide)

/-- C2 counterexample: a single non-empty, `;`-free, trimmed tag whose text
begins with `ASCII` — exactly a case the claim includes — does not survive
the round trip: the saved comment `ASCIIart` is 8 bytes, the decoder strips
it entirely as a marker, and the loaded list is empty. -/
theorem c2_counterexample :
    (rustTrim "ASCIIart".toList = "ASCIIart".toList ∧
      "ASCIIart".toList ≠ [] ∧ ';' ∉ "ASCIIart".toList ∧
      is_supported_format ⟨"a.png".toList⟩ = true) ∧
    (save_tags ⟨"a.png".toList⟩ ["ASCIIart".toList] ⟨none⟩).2.comment =
      some "ASCIIart".toList ∧
    load_tags ⟨"a.png".toList⟩ (ReadResult.comment "ASCIIart".toList) =
      some [] ∧
    some ([] : List (List Char)) ≠ some ["ASCIIart".toList] := by
  decide

/-- C2 (amended): the round trip holds for every non-empty list of
non-empty, `;`-free, trimmed tags PROVIDED the first tag does not begin with
the `ASCII` or `UNICODE` marker, the first tag does not begin with NUL, and
the last tag does not end with NUL: saving writes the `;`-join as the
comment, and loading that comment returns exactly the original ordered tag
list. -/
theorem c2_roundtrip (p : RPath) (tags : List (List Char)) (fs : FileState)
    (hsupp : is_supported_format p = true)
    (hne : tags ≠ [])
    (hall : ∀ t ∈ tags, t ≠ [] ∧ ';' ∉ t ∧ rustTrim t = t)
    (hA : "ASCII".toList.isPrefixOf (tags.headD []) = false)
    (hU : "UNICODE".toList.isPrefixOf (tags.headD []) = false)
    (hh0 : (tags.headD []).head? ≠ some nulChar)
    (hlN : (tags.getLastD []).getLast? ≠ some nulChar) :
    save_tags p tags fs = (Except.ok (), ⟨some (joinSemi tags)⟩) ∧
    load_tags p (ReadResult.comment (joinSemi tags)) = some tags := by
  obtain ⟨t0, rest, rfl⟩ := List.exists_cons_of_ne_nil hne
  have hA' : "ASCII".toList.isPrefixOf t0 = false := hA
  have hU' : "UNICODE".toList.isPrefixOf t0 = false := hU
  have hh0' : t0.head? ≠ some nulChar := hh0
  obtain ⟨h01, h02, h03⟩ := hall t0 (by simp)
  have hlastsrc : (t0 :: rest).getLast? =
      some ((t0 :: rest).getLastD []) := getLast?_eq_getLastD' _ (by simp)
  have htNmem : (t0 :: rest).getLastD [] ∈ t0 :: rest :=
    mem_of_getLast?_eq _ _ hlastsrc
  obtain ⟨hN1, hN2, hN3⟩ := hall _ htNmem
  have jhead : (joinSemi (t0 :: rest)).head? = t0.head? :=
    joinSemi_head? (t0 :: rest) t0 rfl h01
  have jlast : (joinSemi (t0 :: rest)).getLast? =
      ((t0 :: rest).getLastD []).getLast? :=
    joinSemi_getLast? (t0 :: rest) _ hlastsrc (fun u hu => (hall u hu).1)
  have htrim : rustTrim (joinSemi (t0 :: rest)) = joinSemi (t0 :: rest) :=
    rustTrim_eq_self_of_ends _
      (fun c hc => by
        rw [jhead] at hc
        exact rustTrim_eq_self_head t0 h03 c hc)
      (fun c hc => by
        rw [jlast] at hc
        exact rustTrim_eq_self_last _ hN3 c hc)
  have hjA : "ASCII".toList.isPrefixOf (joinSemi (t0 :: rest)) = false := by
    cases rest with
    | nil => exact hA'
    | cons t2 ts =>
      exact isPrefixOf_append_cons _ t0 (joinSemi (t2 :: ts)) ';' hA'
        (by decide)
  have hjU : "UNICODE".toList.isPrefixOf (joinSemi (t0 :: rest)) = false := by
    cases rest with
    | nil => exact hU'
    | cons t2 ts =>
      exact isPrefixOf_append_cons _ t0 (joinSemi (t2 :: ts)) ';' hU'
        (by decide)
  have htmn : trimMatchesNul (joinSemi (t0 :: rest)) =
      joinSemi (t0 :: rest) :=
    trimMatchesNul_eq_self_of_ends _
      (fun c hc => by
        rw [jhead] at hc
        intro he
        rw [he] at hc
        exact hh0' hc)
      (fun c hc => by
        rw [jlast] at hc
        intro he
        rw [he] at hc
        exact hlN hc)
  have hsplit : splitSemi (joinSemi (t0 :: rest)) = t0 :: rest :=
    splitSemi_joinSemi _ (by simp) (fun u hu => (hall u hu).2.1)
  have hmap : (t0 :: rest).map rustTrim = t0 :: rest :=
    map_rustTrim_eq_self _ (fun a ha => (hall a ha).2.2)
  have hfilter : (t0 :: rest).filter (fun x => x ≠ []) = t0 :: rest :=
    List.filter_eq_self.mpr (fun a ha => by simpa using (hall a ha).1)
  constructor
  · simp [save_tags, hsupp]
  · have hload : load_tags p (ReadResult.comment (joinSemi (t0 :: rest))) =
        decodeUserComment (joinSemi (t0 :: rest)) := by
      simp [load_tags, hsupp]
    rw [hload]
    simp only [decodeUserComment]
    rw [htrim, hjA, hjU]
    simp only [Bool.false_eq_true, if_false]
    rw [htmn, hsplit, hmap, hfilter]

/-- Witness for C2: round trip of `["tag1", "tag2"]` through an `a.png`
file. -/
theorem c2_roundtrip_witness :
    save_tags ⟨"a.png".toList⟩ ["tag1".toList, "tag2".toList] ⟨none⟩ =
      (Except.ok (), ⟨some (joinSemi ["tag1".toList, "tag2".toList])⟩) ∧
    load_tags ⟨"a.png".toList⟩
      (ReadResult.comment (joinSemi ["tag1".toList, "tag2".toList])) =
      some ["tag1".toList, "tag2".toList] :=
  c2_roundtrip ⟨"a.png".toList⟩ ["tag1".toList, "tag2".toList] ⟨none⟩
    (by decide) (by decide) (by decide) (by decide) (by decide) (by decide)
    (by decide)
